import Mathlib

/-!
Verification of `src/lvtemple_whatsapp.py` (SVETA-events).

Shallow embedding conventions:
* Python `str` values are modelled as Lean `String` / `List Char`; Python indexes,
  slices and `len` operate on code points, exactly as `List Char` does.
* `str.isspace` and the regex class `\s` agree on ASCII characters (the only
  characters alive at the points where the code applies them, since
  `encode("ascii", errors="ignore")` has already removed every non-ASCII
  character): both accept exactly
  space, `\t`, `\n`, `\x0b`, `\x0c`, `\r`, `\x1c`, `\x1d`, `\x1e`, `\x1f`.
  This common ASCII restriction is `pyWs`.
* Python `ch.isalnum()` on ASCII characters accepts exactly `0-9A-Za-z`,
  which is Lean's `Char.isAlphanum`.
* `datetime.date` values are modelled by the `Date` structure; Python compares
  dates chronologically, which for valid dates is the lexicographic order on
  `(year, month, day)` used here, and `timedelta(days=n)` is `Date.addDays`.
* Stateful boundaries (HTTP, BeautifulSoup, Airtable) enter as plain data:
  an HTML `<article>` is modelled by the fields the code reads from it, and
  the WhatsApp send call by its outcome (`Except`).
-/

namespace Sveta

/-- Python whitespace on ASCII characters: the common restriction of
`str.isspace` and of the regex class `\s` (see module docstring). -/
def pyWs (c : Char) : Bool :=
  c == ' ' || c == '\t' || c == '\n' || c == '\x0b' || c == '\x0c' || c == '\r' ||
  c == '\x1c' || c == '\x1d' || c == '\x1e' || c == '\x1f'

/-- Python `ch.isalnum()` on ASCII characters: exactly the digits (code points
48-57), uppercase letters (65-90) and lowercase letters (97-122).  Only ASCII
characters reach the point where the code applies `isalnum`, because the
`encode("ascii", errors="ignore")` step precedes it. -/
def pyIsAlnum (c : Char) : Bool :=
  (decide (48 ≤ c.toNat) && decide (c.toNat ≤ 57)) ||
  (decide (65 ≤ c.toNat) && decide (c.toNat ≤ 90)) ||
  (decide (97 ≤ c.toNat) && decide (c.toNat ≤ 122))

/-- The `_ALLOWED_PUNCT` set from the source: space, period, comma, colon,
semicolon, hyphen, slash and both parentheses (note it includes the space
character). -/
def ALLOWED_PUNCT : String := " .,:;-/()"

/-- Python `ch in _ALLOWED_PUNCT`. -/
def inAllowedPunct (c : Char) : Bool := ALLOWED_PUNCT.data.contains c

/-- One single-character `str.replace(a, b)` step, applied characterwise
(for single-character patterns, Python's `replace` is exactly a map). -/
def replaceChar (a b c : Char) : Char := if c = a then b else c

/-- `to_ascii_basic` from the source, on the character list of the string:
`if not s: return ""`; replace NBSP with a space; replace en dash and em dash
with `-` and the bullet with a space; `encode("ascii", errors="ignore")`
(drops every character above U+007F); finally keep characters that are
alphanumeric, whitespace or in `_ALLOWED_PUNCT`, and replace every other
character with a single space. -/
def toAsciiBasic (l : List Char) : List Char :=
  if l = [] then []
  else
    (((((l.map (replaceChar '\u00A0' ' ')).map (replaceChar '–' '-')).map
        (replaceChar '—' '-')).map (replaceChar '•' ' ')).filter
        (fun c => c.toNat ≤ 127)).map
      (fun c => if pyIsAlnum c || pyWs c || inAllowedPunct c then c else ' ')

/-- `re.sub(r"\s+", " ", s)`: every maximal run of whitespace characters is
replaced by one single space.  The flag records whether the previous character
was whitespace (i.e. whether we are inside a run whose space has already been
emitted). -/
def collapseWs (prevWs : Bool) : List Char → List Char
  | [] => []
  | c :: cs =>
    if pyWs c then
      if prevWs then collapseWs true cs else ' ' :: collapseWs true cs
    else c :: collapseWs false cs

/-- Python `str.strip()`: drop leading and trailing whitespace. -/
def pyStripWs (l : List Char) : List Char :=
  ((l.dropWhile pyWs).reverse.dropWhile pyWs).reverse

/-- The character-list body of `sanitize_for_whatsapp_param`:
`to_ascii_basic`, then replace `\r`, `\n`, `\t` by spaces, then
`re.sub(r"\s+", " ", s).strip()`. -/
def sanitizeCore (l : List Char) : List Char :=
  pyStripWs (collapseWs false
    ((((toAsciiBasic l).map (replaceChar '\r' ' ')).map (replaceChar '\n' ' ')).map
      (replaceChar '\t' ' ')))

/-- `to_ascii_basic` from the source, at `String` level. -/
def to_ascii_basic (s : String) : String := ⟨toAsciiBasic s.data⟩

/-- `sanitize_for_whatsapp_param` from the source, at `String` level. -/
def sanitize_for_whatsapp_param (s : String) : String := ⟨sanitizeCore s.data⟩

/-- Characters that can appear in a sanitized string: ASCII alphanumerics and
the allowed punctuation set (which contains the space). -/
def okChar (c : Char) : Bool := pyIsAlnum c || inAllowedPunct c

example : sanitize_for_whatsapp_param "  Hi •  there\n!" = "Hi there" := by decide

example : sanitize_for_whatsapp_param "" = "" := by decide

/-- A Python `datetime.date`: a calendar date.  Valid dates have
`1 ≤ month ≤ 12` and `1 ≤ day ≤ daysInMonth year month`; Python compares dates
chronologically, which on valid dates is the lexicographic order on
`(year, month, day)` implemented by `dateLt` and `dateLe` below. -/
structure Date where
  year : Nat
  month : Nat
  day : Nat
deriving DecidableEq

/-- Gregorian leap year, as used by `datetime.date` arithmetic. -/
def isLeap (y : Nat) : Bool := y % 4 == 0 && (y % 100 != 0 || y % 400 == 0)

/-- Number of days in a month of the Gregorian calendar. -/
def daysInMonth (y m : Nat) : Nat :=
  if m = 2 then (if isLeap y then 29 else 28)
  else if m = 4 ∨ m = 6 ∨ m = 9 ∨ m = 11 then 30 else 31

/-- The next calendar day (`date + timedelta(days=1)`). -/
def Date.succ (d : Date) : Date :=
  if d.day < daysInMonth d.year d.month then ⟨d.year, d.month, d.day + 1⟩
  else if d.month < 12 then ⟨d.year, d.month + 1, 1⟩
  else ⟨d.year + 1, 1, 1⟩

/-- `date + timedelta(days=n)`. -/
def Date.addDays (d : Date) : Nat → Date
  | 0 => d
  | n + 1 => (Date.addDays d n).succ

/-- Python `date <` comparison (chronological; lexicographic on the triple). -/
def dateLt (a b : Date) : Bool :=
  decide (a.year < b.year) ||
    (a.year == b.year &&
      (decide (a.month < b.month) || (a.month == b.month && decide (a.day < b.day))))

/-- Python `date <=` comparison. -/
def dateLe (a b : Date) : Bool := dateLt a b || a == b

/-- `strftime("%b")` month abbreviations (months are 1-12 on valid dates). -/
def monthAbbrev : Nat → String
  | 1 => "Jan" | 2 => "Feb" | 3 => "Mar" | 4 => "Apr" | 5 => "May" | 6 => "Jun"
  | 7 => "Jul" | 8 => "Aug" | 9 => "Sep" | 10 => "Oct" | 11 => "Nov" | 12 => "Dec"
  | _ => ""

/-- Zero-padding to two digits, as `strftime("%d")` does. -/
def pad2 (n : Nat) : String := if n < 10 then "0" ++ Nat.repr n else Nat.repr n

/-- Zero-padding to four digits, as glibc `strftime("%Y")` does. -/
def pad4 (n : Nat) : String :=
  if n < 10 then "000" ++ Nat.repr n
  else if n < 100 then "00" ++ Nat.repr n
  else if n < 1000 then "0" ++ Nat.repr n
  else Nat.repr n

/-- `d.strftime("%b %d")`. -/
def strftimeBD (d : Date) : String := monthAbbrev d.month ++ " " ++ pad2 d.day

/-- `d.strftime("%b %d %Y")`. -/
def strftimeBDY (d : Date) : String := strftimeBD d ++ " " ++ pad4 d.year

/-- An event dict as built by `get_7_day_events` and consumed by
`format_events_message`: the formatter reads `date` with `ev["date"]` (always
present) and the other two fields with `.get(..., default)`, so the latter are
`Option`s. -/
structure Event where
  date : Date
  display_time : Option String
  title : Option String
deriving DecidableEq

/-- Python string `<=` on character lists: lexicographic by code point. -/
def strLec : List Char → List Char → Bool
  | [], _ => true
  | _ :: _, [] => false
  | a :: as, b :: bs => decide (a.toNat < b.toNat) || (a == b && strLec as bs)

/-- The sort key of `format_events_message`:
`(e["date"], e.get("display_time") or "")` — note the key does NOT include the
title.  `x or ""` maps both `None` and `""` to `""`, i.e. it is `Option.getD`
here. -/
def sortKey (e : Event) : Date × String := (e.date, e.display_time.getD "")

/-- Boolean comparison of events by their sort key (Python tuple `<=`). -/
def keyLeB (a b : Event) : Bool :=
  dateLt a.date b.date ||
    (a.date == b.date &&
      strLec (a.display_time.getD "").data (b.display_time.getD "").data)

/-- The sort relation used by `sorted(events, key=...)`.  Python's `sorted` is
a stable sort, and a stable sort is extensionally determined by the key order,
so Mathlib's (stable) `insertionSort` by this relation models it exactly. -/
def evLe (a b : Event) : Prop := keyLeB a b = true

instance : DecidableRel evLe := fun _ _ => inferInstanceAs (Decidable (_ = true))

/-- One rendered event line:
`f-string "{d} {t} {title}."` with `d = ev["date"].strftime("%b %d")`,
`t = ev.get("display_time", "")` and `title = ev.get("title", "")`. -/
def renderEvent (ev : Event) : String :=
  strftimeBD ev.date ++ " " ++ ev.display_time.getD "" ++ " " ++ ev.title.getD "" ++ "."

/-- Python `" ".join(parts)`. -/
def joinSpace : List String → String
  | [] => ""
  | [p] => p
  | p :: ps => p ++ " " ++ joinSpace ps

def MAX_PARAM_LEN : Nat := 900

/-- The header line of `format_events_message`. -/
def eventsHeader (start_date : Date) : String :=
  "Next 7 days " ++ strftimeBDY start_date ++ " to " ++ strftimeBDY (start_date.addDays 6) ++ "."

/-- The sanitized natural rendering computed by `format_events_message` before
the length check: header plus one part per sorted event, joined with spaces and
passed through `sanitize_for_whatsapp_param`. -/
def renderedMsg (start_date : Date) (events : List Event) : String :=
  sanitize_for_whatsapp_param
    (joinSpace (eventsHeader start_date :: (events.insertionSort evLe).map renderEvent))

/-- Python `s.rstrip(chars)`: drop trailing characters belonging to `chars`. -/
def pyRstrip (chars : List Char) (l : List Char) : List Char :=
  (l.reverse.dropWhile (fun c => chars.contains c)).reverse

/-- The truncation branch of `format_events_message`:
`msg[: MAX_PARAM_LEN - 6]`, then `rstrip` over the characters of
`ALLOWED_PUNCT` (the source spells that set out again as the `rstrip`
argument), then `+ " more."`, re-sanitized. -/
def truncateMsg (msg : String) : String :=
  sanitize_for_whatsapp_param
    ⟨pyRstrip ALLOWED_PUNCT.data (msg.data.take (MAX_PARAM_LEN - 6)) ++ " more.".data⟩

/-- `format_events_message` from the source.  The source computes
`start_date = datetime.now(TZ).date() + timedelta(days=1)` itself; real time is
not part of the embedding, so the start date is the explicit first argument. -/
def format_events_message (start_date : Date) (events : List Event) : String :=
  let msg := renderedMsg start_date events
  if MAX_PARAM_LEN < msg.length then truncateMsg msg else msg

/-- The `<time class="tribe-events-calendar-list__event-datetime">` element of
an article, as read by `get_7_day_events`: its `datetime` attribute (the
`Date` is the value `datetime.fromisoformat(raw.split()[0]).date()` would
parse; `none` models a missing/empty attribute, the `if not raw_date_str`
check) and its `get_text(" ", strip=True)` text. -/
structure TimeEl where
  datetimeDate : Option Date
  text : String
deriving DecidableEq

/-- An `<article class="tribe-events-calendar-list__event">` as read by
`get_7_day_events`: its optional time element and the text of its optional
title link. -/
structure Article where
  timeEl : Option TimeEl
  titleText : Option String
deriving DecidableEq

/-- Python `" ".join(s.split())`: split on whitespace runs (dropping empty
pieces) and re-join with single spaces — equivalently, collapse whitespace
runs to single spaces and strip the ends. -/
def pyJoinSplit (s : String) : String := ⟨pyStripWs (collapseWs false s.data)⟩

/-- The event dict appended by `get_7_day_events` for an in-window article. -/
def articleEvent (a : Article) (tel : TimeEl) (d : Date) : Event :=
  { date := d
    display_time := some (pyJoinSplit tel.text)
    title := some (match a.titleText with | some t => t | none => "Unknown Event") }

/-- The scanning loop of `get_7_day_events`: skip articles without a time
element or without a `datetime` attribute; keep events with
`start_date <= event_date <= end_date`; `break` (drop the whole rest of the
list) as soon as an article's date exceeds `end_date`; otherwise continue. -/
def scanArticles (start_date end_date : Date) : List Article → List Event
  | [] => []
  | a :: rest =>
    match a.timeEl with
    | none => scanArticles start_date end_date rest
    | some tel =>
      match tel.datetimeDate with
      | none => scanArticles start_date end_date rest
      | some d =>
        if dateLe start_date d && dateLe d end_date then
          articleEvent a tel d :: scanArticles start_date end_date rest
        else if dateLt end_date d then []
        else scanArticles start_date end_date rest

/-- `get_7_day_events` from the source: `end_date = start_date + 6 days`, then
scan the fetched articles.  As with the formatter, `start_date` (the day after
"now" in the configured time zone) and the fetched articles are explicit
arguments, since real time and HTTP are not part of the embedding. -/
def get_7_day_events (start_date : Date) (articles : List Article) : List Event :=
  scanArticles start_date (start_date.addDays 6) articles

/-- The machine-readable date the scanner reads from an article, when the
article has a time element with a `datetime` attribute. -/
def articleDate (a : Article) : Option Date :=
  a.timeEl.bind (fun tel => tel.datetimeDate)

/-- Two articles are date-ordered when their machine-readable dates (if both
exist) are in non-decreasing order.  A list that is `Pairwise dateOrdered`
models the "entries are assumed date-ordered" assumption of the list-scan
strategy. -/
def dateOrdered (a₁ a₂ : Article) : Bool :=
  match articleDate a₁, articleDate a₂ with
  | some d₁, some d₂ => dateLe d₁ d₂
  | _, _ => true

/-- The per-recipient send loop of `main`: each send either returns a message
id or raises (`send` models `send_whatsapp_template`'s outcome for a given
recipient); an exception is caught, logged and counted, and the loop
continues.  Returns the final `(sent, failed)` tally. -/
def runSendLoop (send : String → Except String String) (recipients : List String) : Nat × Nat :=
  recipients.foldl
    (fun acc n =>
      match send n with
      | .ok _ => (acc.1 + 1, acc.2)
      | .error _ => (acc.1, acc.2 + 1))
    (0, 0)

/-- Substring test: is `pat` a contiguous substring of `l`? -/
def listContains (pat : List Char) (l : List Char) : Bool :=
  l.tails.any (fun t => pat.isPrefixOf t)

/-- Substring test on strings (Python `pat in s`). -/
def strContains (s pat : String) : Bool := listContains pat.data s.data

example : Date.addDays ⟨2026, 2, 18⟩ 6 = ⟨2026, 2, 24⟩ := by decide

example : strftimeBDY ⟨2026, 2, 18⟩ = "Feb 18 2026" := by decide

/-! ### Character-level facts about the sanitizer's predicates -/

theorem pyWs_iff {c : Char} :
    pyWs c = true ↔
      c = ' ' ∨ c = '\t' ∨ c = '\n' ∨ c = '\x0b' ∨ c = '\x0c' ∨ c = '\r' ∨
      c = '\x1c' ∨ c = '\x1d' ∨ c = '\x1e' ∨ c = '\x1f' := by
  simp [pyWs, Bool.or_eq_true, beq_iff_eq, or_assoc]

theorem pyIsAlnum_iff {c : Char} :
    pyIsAlnum c = true ↔
      (48 ≤ c.toNat ∧ c.toNat ≤ 57) ∨ (65 ≤ c.toNat ∧ c.toNat ≤ 90) ∨
      (97 ≤ c.toNat ∧ c.toNat ≤ 122) := by
  simp [pyIsAlnum, Bool.or_eq_true, Bool.and_eq_true, decide_eq_true_eq, or_assoc]

theorem allowedPunct_data :
    ALLOWED_PUNCT.data = [' ', '.', ',', ':', ';', '-', '/', '(', ')'] := rfl

theorem inAllowedPunct_iff {c : Char} :
    inAllowedPunct c = true ↔
      c = ' ' ∨ c = '.' ∨ c = ',' ∨ c = ':' ∨ c = ';' ∨ c = '-' ∨ c = '/' ∨
      c = '(' ∨ c = ')' := by
  simp [inAllowedPunct, allowedPunct_data]

/-- The whitespace characters among the allowed output characters: only the
plain space. -/
theorem okChar_ws_eq_space {c : Char} (hok : okChar c = true) (hws : pyWs c = true) :
    c = ' ' := by
  rcases pyWs_iff.mp hws with h | h | h | h | h | h | h | h | h | h <;> subst h <;>
    first
      | rfl
      | exact absurd hok (by decide)

/-- Allowed output characters are ASCII. -/
theorem okChar_ascii {c : Char} (hok : okChar c = true) : c.toNat ≤ 127 := by
  rcases Bool.or_eq_true_iff.mp hok with h' | h'
  · rcases pyIsAlnum_iff.mp h' with ⟨h₁, h₂⟩ | ⟨h₁, h₂⟩ | ⟨h₁, h₂⟩ <;> omega
  · rcases inAllowedPunct_iff.mp h' with h | h | h | h | h | h | h | h | h <;> subst h <;> decide

/-- Allowed output characters are none of the characters the sanitizer
replaces (NBSP, the two dashes, the bullet, CR, LF, TAB). -/
theorem okChar_not_replaced {c : Char} (hok : okChar c = true) :
    c ≠ '\u00A0' ∧ c ≠ '–' ∧ c ≠ '—' ∧ c ≠ '•' ∧ c ≠ '\r' ∧ c ≠ '\n' ∧ c ≠ '\t' := by
  refine ⟨?_, ?_, ?_, ?_, ?_, ?_, ?_⟩ <;> (intro h; subst h; exact absurd hok (by decide))

/-- Allowed output characters pass the keep-test of `to_ascii_basic`'s final
step unchanged. -/
theorem okChar_keep {c : Char} (hok : okChar c = true) :
    (pyIsAlnum c || pyWs c || inAllowedPunct c) = true := by
  rcases Bool.or_eq_true_iff.mp hok with h' | h' <;> simp [h']

/-! ### Properties of whitespace collapsing and stripping -/

/-- The no-whitespace-run adjacency relation: two consecutive characters are
never both whitespace. -/
def noWW (a b : Char) : Prop := ¬(pyWs a = true ∧ pyWs b = true)

theorem collapseWs_mem {c : Char} :
    ∀ (b : Bool) (l : List Char), c ∈ collapseWs b l → c = ' ' ∨ (c ∈ l ∧ pyWs c = false) := by
  intro b l
  induction l generalizing b with
  | nil => simp [collapseWs]
  | cons a as ih =>
    intro h
    cases ha : pyWs a with
    | false =>
      rw [collapseWs, ha] at h
      simp only [Bool.false_eq_true, if_false] at h
      rcases List.mem_cons.mp h with h | h
      · exact Or.inr ⟨h ▸ List.mem_cons_self a as, h ▸ ha⟩
      · rcases ih false h with h' | ⟨h₁, h₂⟩
        · exact Or.inl h'
        · exact Or.inr ⟨List.mem_cons_of_mem a h₁, h₂⟩
    | true =>
      rw [collapseWs, ha] at h
      simp only [if_true] at h
      cases b with
      | true =>
        rcases ih true h with h' | ⟨h₁, h₂⟩
        · exact Or.inl h'
        · exact Or.inr ⟨List.mem_cons_of_mem a h₁, h₂⟩
      | false =>
        rcases List.mem_cons.mp h with h | h
        · exact Or.inl h
        · rcases ih true h with h' | ⟨h₁, h₂⟩
          · exact Or.inl h'
          · exact Or.inr ⟨List.mem_cons_of_mem a h₁, h₂⟩

theorem collapseWs_head_not_ws {c : Char} :
    ∀ (l : List Char), (collapseWs true l).head? = some c → pyWs c = false := by
  intro l
  induction l with
  | nil => simp [collapseWs]
  | cons a as ih =>
    intro h
    cases ha : pyWs a with
    | false =>
      rw [collapseWs, ha] at h
      simp only [Bool.false_eq_true, if_false, List.head?_cons, Option.some.injEq] at h
      exact h ▸ ha
    | true =>
      rw [collapseWs, ha] at h
      simp only [if_true] at h
      exact ih h

theorem collapseWs_chain' : ∀ (b : Bool) (l : List Char), (collapseWs b l).Chain' noWW := by
  intro b l
  induction l generalizing b with
  | nil => simp [collapseWs]
  | cons a as ih =>
    cases ha : pyWs a with
    | false =>
      rw [collapseWs, ha]
      simp only [Bool.false_eq_true, if_false]
      refine List.chain'_cons'.mpr ⟨?_, ih false⟩
      intro y _
      exact fun ⟨h₁, _⟩ => by rw [ha] at h₁; exact Bool.false_ne_true h₁
    | true =>
      rw [collapseWs, ha]
      simp only [if_true]
      cases b with
      | true => exact ih true
      | false =>
        refine List.chain'_cons'.mpr ⟨?_, ih true⟩
        intro y hy
        exact fun ⟨_, h₂⟩ => by
          rw [collapseWs_head_not_ws as hy] at h₂; exact Bool.false_ne_true h₂

theorem collapseWs_length_le : ∀ (b : Bool) (l : List Char),
    (collapseWs b l).length ≤ l.length := by
  intro b l
  induction l generalizing b with
  | nil => simp [collapseWs]
  | cons a as ih =>
    cases ha : pyWs a with
    | false =>
      rw [collapseWs, ha]
      simpa using ih false
    | true =>
      rw [collapseWs, ha]
      simp only [if_true]
      cases b with
      | true => exact Nat.le_succ_of_le (ih true)
      | false => simpa using ih true

/-- When the head of the list is not whitespace, the run flag is irrelevant. -/
theorem collapseWs_true_eq_false {l : List Char}
    (h : ∀ c, l.head? = some c → pyWs c = false) :
    collapseWs true l = collapseWs false l := by
  cases l with
  | nil => rfl
  | cons a as =>
    have ha := h a rfl
    rw [collapseWs, collapseWs, ha]
    simp

/-- Collapsing is the identity on lists whose only whitespace characters are
single non-adjacent spaces. -/
theorem collapseWs_eq_self : ∀ {l : List Char},
    (∀ c ∈ l, pyWs c = true → c = ' ') → l.Chain' noWW → collapseWs false l = l := by
  intro l
  induction l with
  | nil => intro _ _; rfl
  | cons a as ih =>
    intro hsp hch
    cases ha : pyWs a with
    | false =>
      rw [collapseWs, ha]
      simp only [Bool.false_eq_true, if_false, List.cons.injEq, true_and]
      exact ih (fun c hc => hsp c (List.mem_cons_of_mem a hc)) (List.chain'_cons'.mp hch).2
    | true =>
      have haSpace : a = ' ' := hsp a (List.mem_cons_self a as) ha
      have hhead : ∀ c, as.head? = some c → pyWs c = false := by
        intro c hc
        have := (List.chain'_cons'.mp hch).1 c hc
        cases hpc : pyWs c with
        | false => rfl
        | true => exact absurd ⟨ha, hpc⟩ this
      rw [collapseWs, ha]
      simp only [if_true, Bool.false_eq_true, if_false]
      rw [collapseWs_true_eq_false hhead,
        ih (fun c hc => hsp c (List.mem_cons_of_mem a hc)) (List.chain'_cons'.mp hch).2, haSpace]

theorem head?_dropWhile_not {p : Char → Bool} {c : Char} :
    ∀ (l : List Char), (l.dropWhile p).head? = some c → p c = false := by
  intro l
  induction l with
  | nil => simp
  | cons a as ih =>
    intro h
    rw [List.dropWhile_cons] at h
    by_cases hp : p a = true
    · rw [if_pos hp] at h; exact ih h
    · rw [if_neg hp] at h
      simp only [List.head?_cons, Option.some.injEq] at h
      subst h
      exact Bool.not_eq_true _ ▸ Bool.of_not_eq_true hp

theorem chain'_dropWhile {p : Char → Bool} :
    ∀ {l : List Char}, l.Chain' noWW → (l.dropWhile p).Chain' noWW := by
  intro l
  induction l with
  | nil => simp
  | cons a as ih =>
    intro h
    rw [List.dropWhile_cons]
    by_cases hp : p a = true
    · rw [if_pos hp]; exact ih (List.chain'_cons'.mp h).2
    · rw [if_neg hp]; exact h

/-- A symmetric `Chain'` is stable under `reverse`. -/
theorem chain'_reverse_noWW {l : List Char} (h : l.Chain' noWW) : l.reverse.Chain' noWW := by
  rw [List.chain'_reverse]
  exact h.imp fun a b hab => fun ⟨h₁, h₂⟩ => hab ⟨h₂, h₁⟩

theorem dropWhile_eq_self_of_head {p : Char → Bool} {l : List Char}
    (h : ∀ c, l.head? = some c → p c = false) : l.dropWhile p = l := by
  cases l with
  | nil => rfl
  | cons a as =>
    rw [List.dropWhile_cons, if_neg]
    rw [h a rfl]
    simp

/-! ### The sanitized-string invariant -/

/-- What it means for a character list to be in sanitized form: every
character is allowed (ASCII alphanumeric or allowed punctuation, space
included), no two consecutive characters are whitespace, and neither end is
whitespace.  `sanitize_for_whatsapp_param` always produces such a list, and is
the identity on such lists. -/
structure IsSanitized (l : List Char) : Prop where
  chars : ∀ c ∈ l, okChar c = true
  noRuns : l.Chain' noWW
  headOk : ∀ c, l.head? = some c → pyWs c = false
  lastOk : ∀ c, l.reverse.head? = some c → pyWs c = false

/-- Every character coming out of `to_ascii_basic` is alphanumeric,
whitespace, or allowed punctuation. -/
theorem toAsciiBasic_mem {l : List Char} :
    ∀ c ∈ toAsciiBasic l, (pyIsAlnum c || pyWs c || inAllowedPunct c) = true := by
  intro c hc
  rw [toAsciiBasic] at hc
  by_cases hl : l = []
  · rw [if_pos hl] at hc; exact absurd hc (List.not_mem_nil c)
  · rw [if_neg hl] at hc
    rcases List.mem_map.mp hc with ⟨x, _, hfx⟩
    by_cases hx : (pyIsAlnum x || pyWs x || inAllowedPunct x) = true
    · rw [if_pos hx] at hfx; exact hfx ▸ hx
    · rw [if_neg hx] at hfx; exact hfx ▸ (by decide)

/-- Mapping a single-character replacement whose target satisfies `p`
preserves `p` across the list. -/
theorem mem_map_replaceChar {p : Char → Bool} {a b : Char} {m : List Char}
    (hb : p b = true) (hl : ∀ c ∈ m, p c = true) :
    ∀ c ∈ m.map (replaceChar a b), p c = true := by
  intro c hc
  rcases List.mem_map.mp hc with ⟨x, hx, hfx⟩
  rw [replaceChar] at hfx
  by_cases hxa : x = a
  · rw [if_pos hxa] at hfx; exact hfx ▸ hb
  · rw [if_neg hxa] at hfx; exact hfx ▸ hl x hx

/-- The input to the whitespace-collapsing step of the sanitizer: all its
characters are alphanumeric, whitespace or allowed punctuation. -/
theorem sanitizePre_mem {l : List Char} :
    ∀ c ∈ (((toAsciiBasic l).map (replaceChar '\r' ' ')).map (replaceChar '\n' ' ')).map
        (replaceChar '\t' ' '),
      (pyIsAlnum c || pyWs c || inAllowedPunct c) = true := by
  refine mem_map_replaceChar (by decide) ?_
  refine mem_map_replaceChar (by decide) ?_
  refine mem_map_replaceChar (by decide) ?_
  exact toAsciiBasic_mem

/-- The output of the sanitizer is in sanitized form. -/
theorem sanitizeCore_sanitized (l : List Char) : IsSanitized (sanitizeCore l) := by
  rw [sanitizeCore]
  set t := (((toAsciiBasic l).map (replaceChar '\r' ' ')).map (replaceChar '\n' ' ')).map
    (replaceChar '\t' ' ') with ht
  set m := collapseWs false t with hm
  set m1 := m.dropWhile pyWs with hm1
  set m2 := m1.reverse.dropWhile pyWs with hm2
  have hmemm : ∀ c ∈ m, okChar c = true := by
    intro c hc
    rcases collapseWs_mem false t hc with h | ⟨hct, hws⟩
    · subst h; decide
    · have := sanitizePre_mem (l := l) c (ht ▸ hct)
      rcases Bool.or_eq_true_iff.mp this with h' | h'
      · rcases Bool.or_eq_true_iff.mp h' with h'' | h''
        · exact Bool.or_eq_true_iff.mpr (Or.inl h'')
        · rw [h''] at hws; exact absurd hws (by simp)
      · exact Bool.or_eq_true_iff.mpr (Or.inr h')
  constructor
  · -- characters
    intro c hc
    rw [pyStripWs] at hc
    have hc2 : c ∈ m2 := List.mem_reverse.mp hc
    have hc1 : c ∈ m1.reverse := (List.dropWhile_sublist _).subset hc2
    exact hmemm c ((List.dropWhile_sublist _).subset (List.mem_reverse.mp hc1))
  · -- no whitespace runs
    rw [pyStripWs]
    exact chain'_reverse_noWW (chain'_dropWhile (chain'_reverse_noWW
      (chain'_dropWhile (collapseWs_chain' false t))))
  · -- head is not whitespace
    intro c hc
    rw [pyStripWs] at hc
    have hdecomp : m1.reverse.takeWhile pyWs ++ m2 = m1.reverse :=
      List.takeWhile_append_dropWhile ..
    have hm1eq : m2.reverse ++ (m1.reverse.takeWhile pyWs).reverse = m1 := by
      have h2 := congrArg List.reverse hdecomp
      rw [List.reverse_append, List.reverse_reverse] at h2
      exact h2
    cases hrev : m2.reverse with
    | nil => rw [hrev] at hc; exact absurd hc (by simp)
    | cons x xs =>
      have hcx : x = c := by rw [hrev] at hc; simpa using hc
      have hx : m1.head? = some x := by rw [← hm1eq, hrev]; rfl
      exact head?_dropWhile_not m (hcx ▸ hx)
  · -- last is not whitespace
    intro c hc
    rw [pyStripWs, List.reverse_reverse] at hc
    exact head?_dropWhile_not m1.reverse hc

/-- The sanitizer is the identity on lists already in sanitized form. -/
theorem sanitizeCore_fixed {l : List Char} (h : IsSanitized l) : sanitizeCore l = l := by
  have hmapid : ∀ (a b : Char), (∀ c ∈ l, c ≠ a) → l.map (replaceChar a b) = l := by
    intro a b hne
    rw [List.map_congr_left (g := id) (fun c hc => by
      rw [replaceChar, if_neg (hne c hc)]; rfl)]
    exact List.map_id l
  have hta : toAsciiBasic l = l := by
    rw [toAsciiBasic]
    by_cases hl : l = []
    · rw [if_pos hl, hl]
    · rw [if_neg hl]
      rw [hmapid _ _ (fun c hc => (okChar_not_replaced (h.chars c hc)).1)]
      rw [hmapid _ _ (fun c hc => (okChar_not_replaced (h.chars c hc)).2.1)]
      rw [hmapid _ _ (fun c hc => (okChar_not_replaced (h.chars c hc)).2.2.1)]
      rw [hmapid _ _ (fun c hc => (okChar_not_replaced (h.chars c hc)).2.2.2.1)]
      rw [List.filter_eq_self.mpr (fun c hc => decide_eq_true (okChar_ascii (h.chars c hc)))]
      rw [List.map_congr_left (g := id) (fun c hc => by
        rw [if_pos (okChar_keep (h.chars c hc))]; rfl)]
      exact List.map_id l
  rw [sanitizeCore, hta]
  rw [hmapid _ _ (fun c hc => (okChar_not_replaced (h.chars c hc)).2.2.2.2.1)]
  rw [hmapid _ _ (fun c hc => (okChar_not_replaced (h.chars c hc)).2.2.2.2.2.1)]
  rw [hmapid _ _ (fun c hc => (okChar_not_replaced (h.chars c hc)).2.2.2.2.2.2)]
  rw [collapseWs_eq_self (fun c hc hws => okChar_ws_eq_space (h.chars c hc) hws) h.noRuns]
  rw [pyStripWs, dropWhile_eq_self_of_head h.headOk, dropWhile_eq_self_of_head h.lastOk,
    List.reverse_reverse]

/-- `to_ascii_basic` never lengthens its input. -/
theorem toAsciiBasic_length_le (l : List Char) : (toAsciiBasic l).length ≤ l.length := by
  rw [toAsciiBasic]
  by_cases hl : l = []
  · rw [if_pos hl]; simp
  · rw [if_neg hl]
    calc _ ≤ ((((l.map (replaceChar ' ' ' ')).map (replaceChar '–' '-')).map
          (replaceChar '—' '-')).map (replaceChar '•' ' ')).length := by
            rw [List.length_map]; exact List.length_filter_le _ _
    _ = l.length := by simp

/-- The sanitizer never lengthens its input. -/
theorem sanitizeCore_length_le (l : List Char) : (sanitizeCore l).length ≤ l.length := by
  rw [sanitizeCore, pyStripWs]
  calc ((((collapseWs false _).dropWhile pyWs).reverse.dropWhile pyWs).reverse).length
      ≤ (((collapseWs false _).dropWhile pyWs).reverse).length := by
        rw [List.length_reverse]
        exact (List.dropWhile_sublist _).length_le
    _ ≤ (collapseWs false _).length := by
        rw [List.length_reverse]
        exact (List.dropWhile_sublist _).length_le
    _ ≤ _ := by
        refine le_trans (collapseWs_length_le false _) ?_
        simp only [List.length_map]
        exact toAsciiBasic_length_le l

/-! ### Claims C4, C5, C10, C6: the sanitizer -/

/-- C4: for every input string, the output of `sanitize_for_whatsapp_param`
contains only letters, digits and the allowed punctuation characters
(space, period, comma, colon, semicolon, hyphen, slash, parentheses), has no
run of two or more whitespace characters, has no leading or trailing
whitespace, and the empty string maps to the empty string. -/
theorem claim_C4 (s : String) :
    (∀ c ∈ (sanitize_for_whatsapp_param s).data, okChar c = true) ∧
    (sanitize_for_whatsapp_param s).data.Chain' noWW ∧
    (∀ c, (sanitize_for_whatsapp_param s).data.head? = some c → pyWs c = false) ∧
    (∀ c, (sanitize_for_whatsapp_param s).data.reverse.head? = some c → pyWs c = false) ∧
    sanitize_for_whatsapp_param "" = "" := by
  have h := sanitizeCore_sanitized s.data
  exact ⟨h.chars, h.noRuns, h.headOk, h.lastOk, by decide⟩

/-- C5: the sanitizer is idempotent. -/
theorem claim_C5 (s : String) :
    sanitize_for_whatsapp_param (sanitize_for_whatsapp_param s) = sanitize_for_whatsapp_param s :=
  congrArg String.mk (sanitizeCore_fixed (sanitizeCore_sanitized s.data))

/-- C10: the sanitizer never lengthens its input (Python `len`, i.e. code
points). -/
theorem claim_C10 (s : String) :
    (sanitize_for_whatsapp_param s).length ≤ s.length :=
  sanitizeCore_length_le s.data

/-- C6 counterexample: the claim says every disallowed character is replaced
with a single space before collapsing, so two allowed characters separated by
a disallowed one never become adjacent.  But non-ASCII characters (here the
non-ASCII letter U+00E9) are dropped by `encode("ascii", errors="ignore")`,
not replaced: the neighbours of the dropped letter become adjacent. -/
theorem claim_C6_cex :
    sanitize_for_whatsapp_param "aéb" = "ab" ∧ sanitize_for_whatsapp_param "aéb" ≠ "a b" := by
  constructor
  · decide
  · decide

/-- C6 amended: a disallowed ASCII character is replaced with a single space
before whitespace collapsing (so its allowed neighbours stay separated), but a
non-ASCII character other than NBSP, the en dash, the em dash and the bullet
is removed entirely, making its neighbours adjacent. -/
theorem claim_C6 (c d : Char)
    (hascii : c.toNat ≤ 127) (halnum : pyIsAlnum c = false) (hws : pyWs c = false)
    (hpunct : inAllowedPunct c = false)
    (hd : 127 < d.toNat) (hd1 : d ≠ ' ') (hd2 : d ≠ '–') (hd3 : d ≠ '—') (hd4 : d ≠ '•') :
    sanitize_for_whatsapp_param ⟨['a', c, 'b']⟩ = "a b" ∧
    sanitize_for_whatsapp_param ⟨['a', d, 'b']⟩ = "ab" := by
  have hstep : ∀ (f : Char → Char) (x : Char), f 'a' = 'a' → f x = x → f 'b' = 'b' →
      List.map f ['a', x, 'b'] = ['a', x, 'b'] := by
    intro f x h1 h2 h3
    simp [h1, h2, h3]
  have hrepl : ∀ (a b x : Char), x ≠ a → replaceChar a b x = x := by
    intro a b x hx
    rw [replaceChar, if_neg hx]
  constructor
  · have hc1 : c ≠ ' ' := fun h => by subst h; exact absurd hascii (by decide)
    have hc2 : c ≠ '–' := fun h => by subst h; exact absurd hascii (by decide)
    have hc3 : c ≠ '—' := fun h => by subst h; exact absurd hascii (by decide)
    have hc4 : c ≠ '•' := fun h => by subst h; exact absurd hascii (by decide)
    have h1 : toAsciiBasic ['a', c, 'b'] = ['a', ' ', 'b'] := by
      rw [toAsciiBasic, if_neg (by simp)]
      rw [hstep _ _ rfl (hrepl _ _ _ hc1) rfl, hstep _ _ rfl (hrepl _ _ _ hc2) rfl,
        hstep _ _ rfl (hrepl _ _ _ hc3) rfl, hstep _ _ rfl (hrepl _ _ _ hc4) rfl]
      rw [List.filter_eq_self.mpr ?keep]
      case keep =>
        intro x hx
        rcases List.mem_cons.mp hx with h | h
        · subst h; decide
        rcases List.mem_cons.mp h with h | h
        · subst h; exact decide_eq_true hascii
        rcases List.mem_cons.mp h with h | h
        · subst h; decide
        · exact absurd h (List.not_mem_nil x)
      simp only [List.map_cons, List.map_nil]
      rw [if_neg (show ¬((pyIsAlnum c || pyWs c || inAllowedPunct c) = true) by
        simp [halnum, hws, hpunct])]
      decide
    show (⟨sanitizeCore ['a', c, 'b']⟩ : String) = "a b"
    rw [sanitizeCore, h1]
    decide
  · have h1 : toAsciiBasic ['a', d, 'b'] = ['a', 'b'] := by
      rw [toAsciiBasic, if_neg (by simp)]
      rw [hstep _ _ rfl (hrepl _ _ _ hd1) rfl, hstep _ _ rfl (hrepl _ _ _ hd2) rfl,
        hstep _ _ rfl (hrepl _ _ _ hd3) rfl, hstep _ _ rfl (hrepl _ _ _ hd4) rfl]
      have hfd : List.filter (fun c => decide (c.toNat ≤ 127)) ['a', d, 'b'] = ['a', 'b'] := by
        have hda : (decide (d.toNat ≤ 127)) = false := decide_eq_false (Nat.not_le.mpr hd)
        simp only [List.filter_cons, List.filter_nil, hda]
        simp
      rw [hfd]
      decide
    show (⟨sanitizeCore ['a', d, 'b']⟩ : String) = "ab"
    rw [sanitizeCore, h1]
    decide

/-- Concrete instantiation of `claim_C6`: the ASCII character `!` is replaced
with a space, while the non-ASCII letter U+00E9 is dropped. -/
theorem claim_C6_witness :
    sanitize_for_whatsapp_param ⟨['a', '!', 'b']⟩ = "a b" ∧
    sanitize_for_whatsapp_param ⟨['a', 'é', 'b']⟩ = "ab" :=
  claim_C6 '!' 'é' (by decide) (by decide) (by decide) (by decide) (by decide) (by decide)
    (by decide) (by decide) (by decide)

/-! ### Claim C9: the orchestrator's send loop -/

/-- The tally fold of the send loop, starting from an arbitrary accumulator,
adds exactly one to one of the two counters per recipient. -/
theorem runSendLoop_tally (send : String → Except String String) :
    ∀ (recipients : List String) (acc : Nat × Nat),
      (recipients.foldl
        (fun acc n =>
          match send n with
          | .ok _ => (acc.1 + 1, acc.2)
          | .error _ => (acc.1, acc.2 + 1))
        acc).1 +
      (recipients.foldl
        (fun acc n =>
          match send n with
          | .ok _ => (acc.1 + 1, acc.2)
          | .error _ => (acc.1, acc.2 + 1))
        acc).2 = acc.1 + acc.2 + recipients.length := by
  intro recipients
  induction recipients with
  | nil => intro acc; simp
  | cons r rest ih =>
    intro acc
    rw [List.foldl_cons, List.length_cons]
    cases hsr : send r with
    | ok v => rw [ih]; simp; omega
    | error e => rw [ih]; simp; omega

/-- C9: every recipient is counted exactly once, so `sent + failed` equals the
number of recipients; a failed send is caught (the loop is total and
continues), and a one-recipient run whose single send fails ends with
`sent = 0, failed = 1`. -/
theorem claim_C9 (send : String → Except String String) (recipients : List String) :
    (runSendLoop send recipients).1 + (runSendLoop send recipients).2 = recipients.length ∧
    (∀ r err, send r = .error err → runSendLoop send [r] = (0, 1)) := by
  constructor
  · rw [runSendLoop]
    rw [runSendLoop_tally send recipients (0, 0)]
    simp
  · intro r err herr
    rw [runSendLoop]
    simp [herr]

/-- Concrete instantiation of `claim_C9`: a single recipient whose send fails
yields the tally `(0, 1)`, and `sent + failed` is the recipient count. -/
theorem claim_C9_witness :
    ((runSendLoop (fun _ => .error "HTTP 401") ["14255551212"]).1 +
      (runSendLoop (fun _ => .error "HTTP 401") ["14255551212"]).2 = 1) ∧
    runSendLoop (fun _ => .error "HTTP 401") ["14255551212"] = (0, 1) :=
  ⟨(claim_C9 (fun _ => .error "HTTP 401") ["14255551212"]).1,
   (claim_C9 (fun _ => .error "HTTP 401") ["14255551212"]).2 "14255551212" "HTTP 401" rfl⟩

/-! ### Date-order lemmas -/

theorem dateLt_iff {a b : Date} :
    dateLt a b = true ↔
      a.year < b.year ∨
        (a.year = b.year ∧ (a.month < b.month ∨ (a.month = b.month ∧ a.day < b.day))) := by
  simp [dateLt, Bool.or_eq_true, Bool.and_eq_true, decide_eq_true_eq, beq_iff_eq]

theorem dateLe_iff {a b : Date} : dateLe a b = true ↔ dateLt a b = true ∨ a = b := by
  simp [dateLe, Bool.or_eq_true, beq_iff_eq]

theorem dateLt_asymm {a b : Date} (h : dateLt a b = true) (h' : dateLt b a = true) : False := by
  rw [dateLt_iff] at h h'
  omega

theorem dateLt_of_lt_of_le {a b c : Date} (h : dateLt a b = true) (h' : dateLe b c = true) :
    dateLt a c = true := by
  rcases dateLe_iff.mp h' with h'' | rfl
  · rw [dateLt_iff] at h h'' ⊢
    omega
  · exact h

theorem dateLe_lt_absurd {a b : Date} (h : dateLe a b = true) (h' : dateLt b a = true) : False := by
  rcases dateLe_iff.mp h with h'' | rfl
  · exact dateLt_asymm h'' h'
  · rw [dateLt_iff] at h'
    omega

/-! ### Claim C2: the extraction window -/

/-- Every event produced by the scanning loop has its date inside the
inclusive window. -/
theorem scanArticles_window {s e : Date} :
    ∀ (articles : List Article) (ev : Event), ev ∈ scanArticles s e articles →
      dateLe s ev.date = true ∧ dateLe ev.date e = true := by
  intro articles
  induction articles with
  | nil =>
    intro ev h
    rw [scanArticles] at h
    exact absurd h (List.not_mem_nil ev)
  | cons a rest ih =>
    intro ev h
    obtain ⟨ate, atitle⟩ := a
    cases ate with
    | none =>
      simp only [scanArticles] at h
      exact ih ev h
    | some tel =>
      obtain ⟨tdate, ttext⟩ := tel
      cases tdate with
      | none =>
        simp only [scanArticles] at h
        exact ih ev h
      | some d =>
        simp only [scanArticles] at h
        by_cases hcond : (dateLe s d && dateLe d e) = true
        · rw [if_pos hcond] at h
          rcases List.mem_cons.mp h with h | h
          · have hb := Bool.and_eq_true_iff.mp hcond
            subst h
            exact ⟨hb.1, hb.2⟩
          · exact ih ev h
        · rw [if_neg hcond] at h
          by_cases hbr : dateLt e d = true
          · rw [if_pos hbr] at h
            exact absurd h (List.not_mem_nil ev)
          · rw [if_neg hbr] at h
            exact ih ev h

/-- C2: every event returned by `get_7_day_events` is dated between
`start_date` and `start_date + 6 days` inclusive (and hence no event dated
outside that window is retained).  The source computes `start_date` as the day
after "now" in the configured time zone; real time is outside the embedding,
so the theorem quantifies over every `start_date`. -/
theorem claim_C2 (start_date : Date) (articles : List Article) :
    ∀ ev ∈ get_7_day_events start_date articles,
      dateLe start_date ev.date = true ∧ dateLe ev.date (start_date.addDays 6) = true := by
  intro ev h
  exact scanArticles_window articles ev h

/-- Concrete instantiation of `claim_C2`: one in-window article on 2026-02-20
for a window starting 2026-02-19. -/
theorem claim_C2_witness :
    (articleEvent
        { timeEl := some { datetimeDate := some ⟨2026, 2, 20⟩, text := "February 20 @ 7:00 pm" },
          titleText := some "Aarti" }
        { datetimeDate := some ⟨2026, 2, 20⟩, text := "February 20 @ 7:00 pm" }
        ⟨2026, 2, 20⟩ ∈
      get_7_day_events ⟨2026, 2, 19⟩
        [{ timeEl := some { datetimeDate := some ⟨2026, 2, 20⟩, text := "February 20 @ 7:00 pm" },
           titleText := some "Aarti" }]) ∧
    (dateLe ⟨2026, 2, 19⟩ ⟨2026, 2, 20⟩ = true ∧
      dateLe ⟨2026, 2, 20⟩ (Date.addDays ⟨2026, 2, 19⟩ 6) = true) :=
  ⟨by decide,
   claim_C2 ⟨2026, 2, 19⟩
     [{ timeEl := some { datetimeDate := some ⟨2026, 2, 20⟩, text := "February 20 @ 7:00 pm" },
        titleText := some "Aarti" }]
     (articleEvent
       { timeEl := some { datetimeDate := some ⟨2026, 2, 20⟩, text := "February 20 @ 7:00 pm" },
         titleText := some "Aarti" }
       { datetimeDate := some ⟨2026, 2, 20⟩, text := "February 20 @ 7:00 pm" }
       ⟨2026, 2, 20⟩)
     (by decide)⟩

/-! ### Claim C3: the early stop of the list scan -/

/-- C3 counterexample: the claim asserts that even for sequences not ordered
by date, every in-window entry is kept.  But when an out-of-window entry
(2026-02-25, beyond the window ending 2026-02-24) precedes an in-window entry
(2026-02-20), the `break` drops the in-window entry: the scan returns `[]`. -/
theorem claim_C3_cex :
    (dateLe ⟨2026, 2, 18⟩ ⟨2026, 2, 20⟩ = true ∧
      dateLe ⟨2026, 2, 20⟩ (Date.addDays ⟨2026, 2, 18⟩ 6) = true) ∧
    get_7_day_events ⟨2026, 2, 18⟩
      [{ timeEl := some { datetimeDate := some ⟨2026, 2, 25⟩, text := "February 25 @ 10:00 am" },
         titleText := some "Late Event" },
       { timeEl := some { datetimeDate := some ⟨2026, 2, 20⟩, text := "February 20 @ 7:00 pm" },
         titleText := some "Dropped Event" }] = [] := by
  constructor
  · constructor
    · decide
    · decide
  · decide

/-- Completeness of the scanning loop on date-ordered sequences: an in-window
dated entry always contributes its event. -/
theorem scanArticles_complete {s e : Date} {a : Article} {tel : TimeEl} {d : Date}
    (htel : a.timeEl = some tel) (hdt : tel.datetimeDate = some d)
    (h₁ : dateLe s d = true) (h₂ : dateLe d e = true) :
    ∀ {articles : List Article},
      articles.Pairwise (fun a₁ a₂ => dateOrdered a₁ a₂ = true) →
      a ∈ articles → articleEvent a tel d ∈ scanArticles s e articles := by
  intro articles
  induction articles with
  | nil => intro _ h; exact absurd h (List.not_mem_nil a)
  | cons b rest ih =>
    intro hp hmem
    have hpb := (List.pairwise_cons.mp hp).1
    have hpr := (List.pairwise_cons.mp hp).2
    rcases List.mem_cons.mp hmem with rfl | hmem'
    · simp only [scanArticles, htel, hdt]
      rw [if_pos (by rw [h₁, h₂]; rfl)]
      exact List.mem_cons_self _ _
    · cases hbte : b.timeEl with
      | none =>
        simp only [scanArticles, hbte]
        exact ih hpr hmem'
      | some telb =>
        cases hbdt : telb.datetimeDate with
        | none =>
          simp only [scanArticles, hbte, hbdt]
          exact ih hpr hmem'
        | some db =>
          simp only [scanArticles, hbte, hbdt]
          by_cases hcond : (dateLe s db && dateLe db e) = true
          · rw [if_pos hcond]
            exact List.mem_cons_of_mem _ (ih hpr hmem')
          · rw [if_neg hcond]
            by_cases hbr : dateLt e db = true
            · exfalso
              have hrel := hpb a hmem'
              rw [dateOrdered] at hrel
              simp only [articleDate, hbte, hbdt, htel, hdt, Option.bind] at hrel
              exact dateLe_lt_absurd h₂ (dateLt_of_lt_of_le hbr hrel)
            · rw [if_neg hbr]
              exact ih hpr hmem'

/-- C3 amended: for date-ordered sequences (the assumption the source's early
stop relies on), every in-window dated entry is kept; for unordered sequences
the early stop can drop in-window entries appearing after an entry dated
beyond the window (see the counterexample). -/
theorem claim_C3 (s : Date) (articles : List Article)
    (hsorted : articles.Pairwise (fun a₁ a₂ => dateOrdered a₁ a₂ = true))
    (a : Article) (tel : TimeEl) (d : Date)
    (ha : a ∈ articles) (htel : a.timeEl = some tel) (hdt : tel.datetimeDate = some d)
    (h₁ : dateLe s d = true) (h₂ : dateLe d (s.addDays 6) = true) :
    articleEvent a tel d ∈ get_7_day_events s articles :=
  scanArticles_complete htel hdt h₁ h₂ hsorted ha

/-- Concrete instantiation of `claim_C3`: in a date-ordered two-article list,
the in-window first article's event is kept. -/
theorem claim_C3_witness :
    articleEvent
        { timeEl := some { datetimeDate := some ⟨2026, 2, 20⟩, text := "February 20 @ 7:00 pm" },
          titleText := some "Kept Event" }
        { datetimeDate := some ⟨2026, 2, 20⟩, text := "February 20 @ 7:00 pm" }
        ⟨2026, 2, 20⟩ ∈
      get_7_day_events ⟨2026, 2, 18⟩
        [{ timeEl := some { datetimeDate := some ⟨2026, 2, 20⟩, text := "February 20 @ 7:00 pm" },
           titleText := some "Kept Event" },
         { timeEl := some { datetimeDate := some ⟨2026, 2, 25⟩, text := "February 25 @ 10:00 am" },
           titleText := some "Late Event" }] :=
  claim_C3 ⟨2026, 2, 18⟩
    [{ timeEl := some { datetimeDate := some ⟨2026, 2, 20⟩, text := "February 20 @ 7:00 pm" },
       titleText := some "Kept Event" },
     { timeEl := some { datetimeDate := some ⟨2026, 2, 25⟩, text := "February 25 @ 10:00 am" },
       titleText := some "Late Event" }]
    (by decide)
    { timeEl := some { datetimeDate := some ⟨2026, 2, 20⟩, text := "February 20 @ 7:00 pm" },
      titleText := some "Kept Event" }
    { datetimeDate := some ⟨2026, 2, 20⟩, text := "February 20 @ 7:00 pm" }
    ⟨2026, 2, 20⟩
    (by decide) (by decide) (by decide) (by decide) (by decide)

/-! ### Lexicographic string order and the formatter's sort key -/

theorem strLec_cons_iff {a b : Char} {as bs : List Char} :
    strLec (a :: as) (b :: bs) = true ↔
      a.toNat < b.toNat ∨ (a = b ∧ strLec as bs = true) := by
  simp [strLec, Bool.or_eq_true, Bool.and_eq_true, decide_eq_true_eq, beq_iff_eq]

theorem strLec_refl : ∀ (l : List Char), strLec l l = true := by
  intro l
  induction l with
  | nil => rfl
  | cons a as ih => exact strLec_cons_iff.mpr (Or.inr ⟨rfl, ih⟩)

theorem strLec_total : ∀ (x y : List Char), strLec x y = true ∨ strLec y x = true := by
  intro x
  induction x with
  | nil => intro y; exact Or.inl rfl
  | cons a as ih =>
    intro y
    cases y with
    | nil => exact Or.inr rfl
    | cons b bs =>
      by_cases hab : a = b
      · subst hab
        rcases ih bs with h | h
        · exact Or.inl (strLec_cons_iff.mpr (Or.inr ⟨rfl, h⟩))
        · exact Or.inr (strLec_cons_iff.mpr (Or.inr ⟨rfl, h⟩))
      · have hne : a.toNat ≠ b.toNat := by
          intro h
          exact hab (Char.eq_of_val_eq (UInt32.ext h))
        rcases Nat.lt_or_ge a.toNat b.toNat with h | h
        · exact Or.inl (strLec_cons_iff.mpr (Or.inl h))
        · exact Or.inr (strLec_cons_iff.mpr (Or.inl (Nat.lt_of_le_of_ne h (Ne.symm hne))))

theorem strLec_trans : ∀ (x y z : List Char),
    strLec x y = true → strLec y z = true → strLec x z = true := by
  intro x
  induction x with
  | nil => intro y z _ _; rfl
  | cons a as ih =>
    intro y z hxy hyz
    cases y with
    | nil => exact absurd hxy (by simp [strLec])
    | cons b bs =>
      cases z with
      | nil => exact absurd hyz (by simp [strLec])
      | cons c cs =>
        rcases strLec_cons_iff.mp hxy with h₁ | ⟨rfl, h₁⟩ <;>
          rcases strLec_cons_iff.mp hyz with h₂ | ⟨he₂, h₂⟩
        · exact strLec_cons_iff.mpr (Or.inl (Nat.lt_trans h₁ h₂))
        · exact strLec_cons_iff.mpr (Or.inl (he₂ ▸ h₁))
        · exact strLec_cons_iff.mpr (Or.inl h₂)
        · exact strLec_cons_iff.mpr (Or.inr ⟨he₂, ih bs cs h₁ h₂⟩)

theorem strLec_antisymm : ∀ (x y : List Char),
    strLec x y = true → strLec y x = true → x = y := by
  intro x
  induction x with
  | nil =>
    intro y _ hyx
    cases y with
    | nil => rfl
    | cons b bs => exact absurd hyx (by simp [strLec])
  | cons a as ih =>
    intro y hxy hyx
    cases y with
    | nil => exact absurd hxy (by simp [strLec])
    | cons b bs =>
      rcases strLec_cons_iff.mp hxy with h₁ | ⟨rfl, h₁⟩ <;>
        rcases strLec_cons_iff.mp hyx with h₂ | ⟨he₂, h₂⟩
      · omega
      · subst he₂; omega
      · omega
      · rw [ih bs h₁ h₂]

theorem date_trichotomy (a b : Date) : dateLt a b = true ∨ a = b ∨ dateLt b a = true := by
  obtain ⟨y₁, m₁, d₁⟩ := a
  obtain ⟨y₂, m₂, d₂⟩ := b
  rw [dateLt_iff, dateLt_iff]
  simp only [Date.mk.injEq]
  omega

theorem dateLt_irrefl (a : Date) : dateLt a a = true → False := by
  rw [dateLt_iff]
  omega

theorem keyLeB_iff {a b : Event} :
    keyLeB a b = true ↔
      dateLt a.date b.date = true ∨
        (a.date = b.date ∧
          strLec (a.display_time.getD "").data (b.display_time.getD "").data = true) := by
  simp [keyLeB, Bool.or_eq_true, Bool.and_eq_true, beq_iff_eq]

theorem evLe_total : ∀ (a b : Event), evLe a b ∨ evLe b a := by
  intro a b
  rcases date_trichotomy a.date b.date with h | h | h
  · exact Or.inl (keyLeB_iff.mpr (Or.inl h))
  · rcases strLec_total (a.display_time.getD "").data (b.display_time.getD "").data with h' | h'
    · exact Or.inl (keyLeB_iff.mpr (Or.inr ⟨h, h'⟩))
    · exact Or.inr (keyLeB_iff.mpr (Or.inr ⟨h.symm, h'⟩))
  · exact Or.inr (keyLeB_iff.mpr (Or.inl h))

theorem evLe_trans : ∀ (a b c : Event), evLe a b → evLe b c → evLe a c := by
  intro a b c hab hbc
  rcases keyLeB_iff.mp hab with h₁ | ⟨he₁, h₁⟩ <;> rcases keyLeB_iff.mp hbc with h₂ | ⟨he₂, h₂⟩
  · exact keyLeB_iff.mpr (Or.inl (dateLt_of_lt_of_le h₁ (dateLe_iff.mpr (Or.inl h₂))))
  · exact keyLeB_iff.mpr (Or.inl (he₂ ▸ h₁))
  · exact keyLeB_iff.mpr (Or.inl (he₁ ▸ h₂))
  · exact keyLeB_iff.mpr (Or.inr ⟨he₁.trans he₂, strLec_trans _ _ _ h₁ h₂⟩)

instance : IsTotal Event evLe := ⟨evLe_total⟩

instance : IsTrans Event evLe := ⟨evLe_trans⟩

/-- Two events below each other in the key order have equal sort keys. -/
theorem evLe_antisymm_key {a b : Event} (hab : evLe a b) (hba : evLe b a) :
    sortKey a = sortKey b := by
  rcases keyLeB_iff.mp hab with h₁ | ⟨he₁, h₁⟩ <;> rcases keyLeB_iff.mp hba with h₂ | ⟨he₂, h₂⟩
  · exact absurd h₂ (fun h => dateLt_asymm h₁ h)
  · exact absurd h₁ (he₂ ▸ fun h => dateLt_irrefl _ h)
  · exact absurd h₂ (he₁ ▸ fun h => dateLt_irrefl _ h)
  · have htime : (a.display_time.getD "").data = (b.display_time.getD "").data :=
      strLec_antisymm _ _ h₁ h₂
    rw [sortKey, sortKey, he₁]
    have : a.display_time.getD "" = b.display_time.getD "" :=
      congrArg String.mk htime
    rw [this]

theorem evLe_refl (a : Event) : evLe a a :=
  keyLeB_iff.mpr (Or.inr ⟨rfl, strLec_refl _⟩)

/-- Two sorted permutations of each other with pairwise-distinct sort keys are
equal. -/
theorem eq_of_perm_of_sorted_nodupkeys :
    ∀ {l₁ l₂ : List Event}, l₁.Perm l₂ → l₁.Sorted evLe → l₂.Sorted evLe →
      (l₁.map sortKey).Nodup → l₁ = l₂ := by
  intro l₁
  induction l₁ with
  | nil =>
    intro l₂ hp _ _ _
    exact (List.Perm.eq_nil hp.symm).symm
  | cons a t ih =>
    intro l₂ hp hs₁ hs₂ hnd
    cases l₂ with
    | nil => exact absurd hp.eq_nil (by simp)
    | cons b t₂ =>
      have hbmem : b ∈ a :: t := hp.symm.subset (List.mem_cons_self b t₂)
      have hamem : a ∈ b :: t₂ := hp.subset (List.mem_cons_self a t)
      have hab : evLe a b := by
        rcases List.mem_cons.mp hbmem with h | h
        · cases h; exact evLe_refl a
        · exact List.rel_of_sorted_cons hs₁ b h
      have hba : evLe b a := by
        rcases List.mem_cons.mp hamem with h | h
        · cases h; exact evLe_refl a
        · exact List.rel_of_sorted_cons hs₂ a h
      have hkey : sortKey a = sortKey b := evLe_antisymm_key hab hba
      have hnd2 : (∀ x ∈ t, ¬sortKey x = sortKey a) ∧ (t.map sortKey).Nodup := by
        simpa using hnd
      have hableq : a = b := by
        rcases List.mem_cons.mp hbmem with h | h
        · exact h.symm
        · exact absurd hkey.symm (hnd2.1 b h)
      subst hableq
      have ht : t = t₂ := ih hp.cons_inv hs₁.of_cons hs₂.of_cons hnd2.2
      rw [ht]

/-! ### Claim C7: determinism of the formatter under permutations -/

/-- C7 counterexample: the sort key is only `(date, display_time or "")` — it
does not include the title — and Python's sort is stable, so two events with
equal keys keep their input order: permuting them changes the output. -/
theorem claim_C7_cex :
    format_events_message ⟨2026, 2, 18⟩
        [{ date := ⟨2026, 2, 20⟩, display_time := some "7:00 pm", title := some "Aarti" },
         { date := ⟨2026, 2, 20⟩, display_time := some "7:00 pm", title := some "Bhajan" }] ≠
      format_events_message ⟨2026, 2, 18⟩
        [{ date := ⟨2026, 2, 20⟩, display_time := some "7:00 pm", title := some "Bhajan" },
         { date := ⟨2026, 2, 20⟩, display_time := some "7:00 pm", title := some "Aarti" }] := by
  decide

/-- C7 amended: the formatter sorts by `(date, display_time or "")` only, so
its output is permutation-invariant exactly when no two events share that sort
key; the title is not part of the key (for lists with a repeated key the
stable sort preserves input order and the counterexample applies). -/
theorem claim_C7 (start_date : Date) (l₁ l₂ : List Event)
    (hperm : l₁.Perm l₂) (hnd : (l₁.map sortKey).Nodup) :
    format_events_message start_date l₁ = format_events_message start_date l₂ := by
  have hsort : l₁.insertionSort evLe = l₂.insertionSort evLe :=
    eq_of_perm_of_sorted_nodupkeys
      ((List.perm_insertionSort evLe l₁).trans (hperm.trans
        (List.perm_insertionSort evLe l₂).symm))
      (List.sorted_insertionSort evLe l₁) (List.sorted_insertionSort evLe l₂)
      (((List.perm_insertionSort evLe l₁).map sortKey).nodup_iff.mpr hnd)
  rw [format_events_message, format_events_message, renderedMsg, renderedMsg, hsort]

/-- Concrete instantiation of `claim_C7`: swapping two events with distinct
display times leaves the output unchanged. -/
theorem claim_C7_witness :
    ([({ date := ⟨2026, 2, 20⟩, display_time := some "7:00 pm", title := some "Aarti" } : Event),
       { date := ⟨2026, 2, 20⟩, display_time := some "8:00 pm", title := some "Bhajan" }].Perm
      [{ date := ⟨2026, 2, 20⟩, display_time := some "8:00 pm", title := some "Bhajan" },
       { date := ⟨2026, 2, 20⟩, display_time := some "7:00 pm", title := some "Aarti" }]) ∧
    format_events_message ⟨2026, 2, 18⟩
        [{ date := ⟨2026, 2, 20⟩, display_time := some "7:00 pm", title := some "Aarti" },
         { date := ⟨2026, 2, 20⟩, display_time := some "8:00 pm", title := some "Bhajan" }] =
      format_events_message ⟨2026, 2, 18⟩
        [{ date := ⟨2026, 2, 20⟩, display_time := some "8:00 pm", title := some "Bhajan" },
         { date := ⟨2026, 2, 20⟩, display_time := some "7:00 pm", title := some "Aarti" }] :=
  ⟨List.Perm.swap _ _ _,
   claim_C7 ⟨2026, 2, 18⟩ _ _ (List.Perm.swap _ _ _) (by decide)⟩

/-! ### Claim C8: rendering of an event without a display time -/

/-- C8 counterexample: for the spec's scenario (start 2026-02-18, an event on
2026-02-20 with no time), the formatted output does not contain the claimed
"Feb 20 Time TBD — Puja Ceremony." fragment — no "time unknown" placeholder
exists anywhere in the code; the missing time renders as an empty string whose
surrounding double space is collapsed. -/
theorem claim_C8_cex :
    strContains
      (format_events_message ⟨2026, 2, 18⟩
        [{ date := ⟨2026, 2, 18⟩, display_time := some "7:00 pm", title := some "Aarti" },
         { date := ⟨2026, 2, 20⟩, display_time := none, title := some "Puja Ceremony" }])
      "Feb 20 Time TBD — Puja Ceremony." = false := by
  decide

/-- C8 amended: an event lacking a display time is rendered with the time
simply omitted: `.get("display_time", "")` yields the empty string, the
rendered part is "Feb 20  Puja Ceremony." and the sanitizer collapses the
double space, so the output contains "Feb 20 Puja Ceremony." (and equals the
stated full message for the scenario). -/
theorem claim_C8 :
    format_events_message ⟨2026, 2, 18⟩
        [{ date := ⟨2026, 2, 18⟩, display_time := some "7:00 pm", title := some "Aarti" },
         { date := ⟨2026, 2, 20⟩, display_time := none, title := some "Puja Ceremony" }] =
      "Next 7 days Feb 18 2026 to Feb 24 2026. Feb 18 7:00 pm Aarti. Feb 20 Puja Ceremony." ∧
    strContains
      (format_events_message ⟨2026, 2, 18⟩
        [{ date := ⟨2026, 2, 18⟩, display_time := some "7:00 pm", title := some "Aarti" },
         { date := ⟨2026, 2, 20⟩, display_time := none, title := some "Puja Ceremony" }])
      "Feb 20 Puja Ceremony." = true := by
  constructor
  · decide
  · decide

/-! ### Claim C1: the 900-character bound of the formatter -/

theorem pyIsAlnum_not_ws {c : Char} (h : pyIsAlnum c = true) : pyWs c = false := by
  cases hws : pyWs c with
  | false => rfl
  | true =>
    exfalso
    rcases pyWs_iff.mp hws with h' | h' | h' | h' | h' | h' | h' | h' | h' | h' <;> subst h' <;>
      exact absurd h (by decide)

/-- Splitting a list around its stripped trailing run: the `rstrip` result
followed by the stripped run reconstitutes the list. -/
theorem rstrip_append (p : Char → Bool) (l : List Char) :
    (l.reverse.dropWhile p).reverse ++ (l.reverse.takeWhile p).reverse = l := by
  have hdecomp : l.reverse.takeWhile p ++ l.reverse.dropWhile p = l.reverse :=
    List.takeWhile_append_dropWhile ..
  have h2 := congrArg List.reverse hdecomp
  rw [List.reverse_append, List.reverse_reverse] at h2
  exact h2

theorem pyRstrip_length_le (chars l : List Char) : (pyRstrip chars l).length ≤ l.length := by
  rw [pyRstrip, List.length_reverse]
  calc (l.reverse.dropWhile fun c => chars.contains c).length
      ≤ l.reverse.length := (List.dropWhile_sublist _).length_le
    _ = l.length := List.length_reverse l

/-- The fixed " more." text has no adjacent whitespace pair. -/
theorem chain'_more : (" more.".data).Chain' noWW := by
  rw [show " more.".data = [' ', 'm', 'o', 'r', 'e', '.'] from rfl]
  refine List.chain'_cons.mpr ⟨fun ⟨_, h⟩ => absurd h (by decide), ?_⟩
  refine List.chain'_cons.mpr ⟨fun ⟨h, _⟩ => absurd h (by decide), ?_⟩
  refine List.chain'_cons.mpr ⟨fun ⟨h, _⟩ => absurd h (by decide), ?_⟩
  refine List.chain'_cons.mpr ⟨fun ⟨h, _⟩ => absurd h (by decide), ?_⟩
  refine List.chain'_cons.mpr ⟨fun ⟨h, _⟩ => absurd h (by decide), ?_⟩
  exact List.chain'_singleton '.'

/-- If a list is in sanitized form, so is the result of appending the fixed
" more." text to any non-empty prefix of it whose last character is
alphanumeric. -/
theorem isSanitized_append_more {R : List Char} (hne : R ≠ [])
    (hchars : ∀ c ∈ R, okChar c = true)
    (hchain : R.Chain' noWW)
    (hhead : ∀ c, R.head? = some c → pyWs c = false)
    (hlast : ∀ c, R.reverse.head? = some c → pyWs c = false) :
    IsSanitized (R ++ " more.".data) := by
  constructor
  · intro c hc
    rcases List.mem_append.mp hc with h | h
    · exact hchars c h
    · revert h
      have hmore : ∀ c ∈ " more.".data, okChar c = true := by decide
      exact hmore c
  · refine List.chain'_append.mpr ⟨hchain, chain'_more, ?_⟩
    intro x hx y _
    have hxws : pyWs x = false := by
      apply hlast
      rw [List.head?_reverse]
      exact Option.mem_def.mp hx
    exact fun ⟨hx', _⟩ => by rw [hxws] at hx'; exact Bool.false_ne_true hx'
  · intro c hc
    cases R with
    | nil => exact absurd rfl hne
    | cons r R' =>
      simp only [List.cons_append, List.head?_cons, Option.some.injEq] at hc
      exact hc ▸ hhead r rfl
  · intro c hc
    rw [List.reverse_append] at hc
    have hmrev : (" more.".data).reverse = ['.', 'e', 'r', 'o', 'm', ' '] := rfl
    rw [hmrev] at hc
    simp only [List.cons_append, List.head?_cons, Option.some.injEq] at hc
    subst hc
    rfl

/-- Core of the truncation branch, over an abstract sanitized character list
`m`: truncating to 894 characters, stripping trailing separators, appending
" more." and re-sanitizing yields a list of length at most 900 that ends with
"more.". -/
theorem truncate_bound_core {m : List Char} (hsan : IsSanitized m) :
    (sanitizeCore
        (pyRstrip ALLOWED_PUNCT.data (m.take (MAX_PARAM_LEN - 6)) ++ " more.".data)).length ≤
      MAX_PARAM_LEN ∧
    ∃ t, t ++ "more.".data =
      sanitizeCore (pyRstrip ALLOWED_PUNCT.data (m.take (MAX_PARAM_LEN - 6)) ++ " more.".data) := by
  set R : List Char := pyRstrip ALLOWED_PUNCT.data (m.take (MAX_PARAM_LEN - 6)) with hRdef
  have hpre : ∃ rest, R ++ rest = m := by
    refine ⟨((m.take (MAX_PARAM_LEN - 6)).reverse.takeWhile
      (fun c => ALLOWED_PUNCT.data.contains c)).reverse ++ m.drop (MAX_PARAM_LEN - 6), ?_⟩
    rw [hRdef, pyRstrip, ← List.append_assoc, rstrip_append, List.take_append_drop]
  have hRlen : R.length ≤ MAX_PARAM_LEN - 6 := by
    calc R.length ≤ (m.take (MAX_PARAM_LEN - 6)).length := pyRstrip_length_le _ _
      _ ≤ MAX_PARAM_LEN - 6 := m.length_take_le _
  have hmax : MAX_PARAM_LEN = 900 := rfl
  cases hcR : R with
  | nil =>
    constructor
    · rw [hmax]
      decide
    · exact ⟨[], by decide⟩
  | cons r R' =>
    rw [← hcR]
    obtain ⟨rest, hrest⟩ := hpre
    have hmemR : ∀ c ∈ R, okChar c = true := by
      intro c hc
      exact hsan.chars c (hrest ▸ List.mem_append_left rest hc)
    have hlastR : ∀ c, R.reverse.head? = some c → pyWs c = false := by
      intro c hc
      have hrev : R.reverse = (m.take (MAX_PARAM_LEN - 6)).reverse.dropWhile
          (fun c => ALLOWED_PUNCT.data.contains c) := by
        rw [hRdef, pyRstrip, List.reverse_reverse]
      rw [hrev] at hc
      have hnp : ALLOWED_PUNCT.data.contains c = false := head?_dropWhile_not _ hc
      have hcR' : c ∈ R := by
        rw [← List.mem_reverse, hrev]
        exact List.mem_of_mem_head? (Option.mem_def.mpr hc)
      have hok := hmemR c hcR'
      rcases Bool.or_eq_true_iff.mp hok with h' | h'
      · exact pyIsAlnum_not_ws h'
      · rw [inAllowedPunct] at h'
        rw [h'] at hnp
        exact absurd hnp (by simp)
    have hheadR : ∀ c, R.head? = some c → pyWs c = false := by
      intro c hc
      apply hsan.headOk
      rw [← hrest]
      exact Option.mem_def.mp (List.mem_head?_append_of_mem_head? (Option.mem_def.mpr hc))
    have hchainR : R.Chain' noWW := by
      have := hrest ▸ hsan.noRuns
      exact (List.chain'_append.mp this).1
    have hsanArg : IsSanitized (R ++ " more.".data) :=
      isSanitized_append_more (by rw [hcR]; exact List.cons_ne_nil r R') hmemR hchainR
        hheadR hlastR
    have hfix : sanitizeCore (R ++ " more.".data) = R ++ " more.".data :=
      sanitizeCore_fixed hsanArg
    rw [hfix]
    constructor
    · rw [List.length_append]
      have h6 : (" more.".data).length = 6 := rfl
      rw [h6, hmax]
      rw [hmax] at hRlen
      omega
    · refine ⟨R ++ [' '], ?_⟩
      rw [List.append_assoc]
      rfl

set_option maxHeartbeats 1000000 in
/-- C1: for every non-empty event list (in fact for every event list), the
formatted message is at most `MAX_PARAM_LEN = 900` characters long, and
whenever the sanitized natural rendering exceeds 900 characters the result is
the truncation and ends with the fixed "more." suffix even after
re-sanitization. -/
theorem claim_C1 (start_date : Date) (events : List Event) (hne : events ≠ []) :
    (format_events_message start_date events).length ≤ MAX_PARAM_LEN ∧
    (MAX_PARAM_LEN < (renderedMsg start_date events).length →
      ∃ t, t ++ "more.".data = (format_events_message start_date events).data) := by
  clear hne
  by_cases hlen : MAX_PARAM_LEN < (renderedMsg start_date events).length
  case neg =>
    have hfmt : format_events_message start_date events = renderedMsg start_date events := by
      rw [format_events_message, if_neg hlen]
    exact ⟨hfmt ▸ Nat.le_of_not_lt hlen, fun hc => absurd hc hlen⟩
  case pos =>
    have hfmt : format_events_message start_date events =
        truncateMsg (renderedMsg start_date events) := by
      rw [format_events_message, if_pos hlen]
    have hsan : IsSanitized (renderedMsg start_date events).data := by
      rw [renderedMsg, sanitize_for_whatsapp_param]
      exact sanitizeCore_sanitized _
    have htrunc : (format_events_message start_date events).data =
        sanitizeCore
          (pyRstrip ALLOWED_PUNCT.data
              ((renderedMsg start_date events).data.take (MAX_PARAM_LEN - 6)) ++
            " more.".data) := by
      rw [hfmt, truncateMsg, sanitize_for_whatsapp_param]
    have hcore := truncate_bound_core hsan
    constructor
    · show (format_events_message start_date events).data.length ≤ MAX_PARAM_LEN
      rw [htrunc]
      exact hcore.1
    · intro _
      rw [htrunc]
      exact hcore.2

/-- Concrete instantiation of `claim_C1` at a one-event list. -/
theorem claim_C1_witness :
    (([{ date := ⟨2026, 2, 18⟩, display_time := some "7:00 pm", title := some "Aarti" }] :
        List Event) ≠ []) ∧
    ((format_events_message ⟨2026, 2, 18⟩
        [{ date := ⟨2026, 2, 18⟩, display_time := some "7:00 pm", title := some "Aarti" }]).length ≤
          MAX_PARAM_LEN ∧
      (MAX_PARAM_LEN < (renderedMsg ⟨2026, 2, 18⟩
          [{ date := ⟨2026, 2, 18⟩, display_time := some "7:00 pm", title := some "Aarti" }]).length →
        ∃ t, t ++ "more.".data =
          (format_events_message ⟨2026, 2, 18⟩
            [{ date := ⟨2026, 2, 18⟩, display_time := some "7:00 pm",
               title := some "Aarti" }]).data)) :=
  ⟨by decide, claim_C1 ⟨2026, 2, 18⟩
    [{ date := ⟨2026, 2, 18⟩, display_time := some "7:00 pm", title := some "Aarti" }] (by decide)⟩

end Sveta
